import Mathlib

/-!
Verification of the skew-estimation core of the Paddle_Form_OCR repository.

The Python sources are shallowly embedded over exact rationals (`ℚ`):
pixel intensities, angles in degrees and confidences are rationals, image
buffers are lists of rows, and the handful of library calls whose numeric
behaviour is outside the scope of the claims (sklearn's PCA fit, OpenCV's
Canny/Hough primitives, `np.std`, the cos/sin of a candidate angle) are
abstracted as function parameters of the embedded estimators, while every
branch, normalization, aggregation and selection step written in the
repository itself is translated literally.
-/

namespace PaddleFormOCR

/-! Section: Fusion (src/5_OpenCV_Advanced/preprocess_opencv.py, `detect_angle_combined`)

The combination step receives the three estimators' (angle, confidence)
pairs and fuses them by a confidence-weighted mean; `total_conf > 0` guards
the division, otherwise `(0, 0)` is returned. -/

/-- Embedding of the fusion arithmetic of `detect_angle_combined`:
`total = conf1+conf2+conf3`; if positive, the weighted mean
`(a1*c1+a2*c2+a3*c3)/total` and the mean confidence `total/3`, else `(0,0)`. -/
def detect_angle_combined (a1 c1 a2 c2 a3 c3 : ℚ) : ℚ × ℚ :=
  let total := c1 + c2 + c3
  if 0 < total then ((a1 * c1 + a2 * c2 + a3 * c3) / total, total / 3)
  else (0, 0)

/-! Section: Angle normalization folds

`detect_angle_by_pca` (src/2_Scikit_Learn_PCA/preprocess_pca.py) applies
`if angle > 45: angle -= 90 elif angle < -45: angle += 90` to the degree
value of `atan2` (whose range is (-180°, 180°]).  `detect_angle_by_lines`
(src/5_OpenCV_Advanced/preprocess_opencv.py) applies the same fold with
the branches in the opposite order. -/

/-- The PCA estimator's angle fold: subtract 90 above 45, add 90 below -45. -/
def normalize_pca_angle (a : ℚ) : ℚ :=
  if a > 45 then a - 90 else if a < -45 then a + 90 else a

/-- The Hough-line estimator's angle fold: add 90 below -45, subtract 90 above 45. -/
def normalize_line_angle (a : ℚ) : ℚ :=
  if a < -45 then a + 90 else if a > 45 then a - 90 else a

/-- Embedding of `np.median`: sort, take the middle element (odd length) or the mean of
the two middle elements (even length). -/
def npMedian (l : List ℚ) : ℚ :=
  let s := l.insertionSort (· ≤ ·)
  let n := s.length
  if n = 0 then 0
  else if n % 2 = 1 then s.getD (n / 2) 0
  else (s.getD (n / 2 - 1) 0 + s.getD (n / 2) 0) / 2

/-- Embedding of `detect_angle_by_pca`: the guard returns `(0,0)` on fewer
than 10 edge points; otherwise the sklearn PCA fit and the `atan2`/degree
conversion (floating point, external library) are abstracted as `pca`,
returning the raw degree angle and the variance-ratio confidence, and the
estimator folds the raw angle with `normalize_pca_angle`. -/
def detect_angle_by_pca (pca : List (ℤ × ℤ) → ℚ × ℚ) (points : List (ℤ × ℤ)) : ℚ × ℚ :=
  if points.length < 10 then (0, 0)
  else
    let r := pca points
    (normalize_pca_angle r.1, r.2)

/-- Embedding of `detect_angle_by_lines` (src/5_OpenCV_Advanced): `none`
models `lines is None`; each detected segment is represented by the raw
degree angle `np.degrees(np.arctan2(y2-y1, x2-x1))` it yields (the
trigonometry itself is outside the rational embedding); the estimator
folds each raw angle, takes the median, and reports confidence
`max 0 (1 - std/45)` where the `np.std` computation (a real square root)
is abstracted as `std`. -/
def detect_angle_by_lines (std : List ℚ → ℚ) (rawAngles : Option (List ℚ)) : ℚ × ℚ :=
  match rawAngles with
  | none => (0, 0)
  | some raws =>
    if raws.length = 0 then (0, 0)
    else
      let angles := raws.map normalize_line_angle
      (npMedian angles, max 0 (1 - std angles / 45))

/-! Section: Geometry estimator (src/5_OpenCV_Advanced, `detect_angle_by_contours`)

Contours are abstract values of a type `C`; `cv2.contourArea` and the
`cv2.minAreaRect` angle are abstracted as functions on `C`.  The largest
contour, the `angle < -45` remap and the `min(area_ratio, 1.0)` confidence
are translated from the source. -/

/-- Python's `max(l, key=f)` over a nonempty list `a :: l`: the first
element attaining the maximal key. -/
def maxBy {C : Type} (f : C → ℚ) (a : C) (l : List C) : C :=
  l.foldl (fun b c => if f b < f c then c else b) a

/-- Embedding of `detect_angle_by_contours`: empty contour list aborts with
`(0,0)`; otherwise the minimum-area-rectangle angle of the largest contour
is remapped by `if angle < -45: angle = 90 + angle` and the confidence is
`min(contour_area / image_area, 1.0)`. -/
def detect_angle_by_contours {C : Type} (area rectAngle : C → ℚ) (imgArea : ℚ) :
    List C → ℚ × ℚ
  | [] => (0, 0)
  | c :: cs =>
    let largest := maxBy area c cs
    let rawAngle := rectAngle largest
    let angle := if rawAngle < -45 then 90 + rawAngle else rawAngle
    (angle, min (area largest / imgArea) 1)

/-! Section: Projection-variance estimator (src/5_OpenCV_Advanced, `detect_angle_by_projection`)

The candidate grid is `np.arange(-10, 10, 0.5)`; rotating the downsampled
binary image and computing the row-sum variance is floating point and is
abstracted as `var : ℚ → ℚ`; the argmax (`np.argmax`: first index of the
maximum), the best angle lookup and the confidence formula are translated
from the source. -/

/-- Embedding of `np.arange start stop step` for positive `step`: the values
`start + k*step` for `0 ≤ k < ⌈(stop-start)/step⌉`. -/
def arangeQ (start stop step : ℚ) : List ℚ :=
  (List.range (Int.toNat ⌈(stop - start) / step⌉)).map fun k : ℕ => start + (k : ℚ) * step

/-- The candidate angles `np.arange(-10, 10, 0.5)` of the projection estimator. -/
def projection_candidates : List ℚ := arangeQ (-10) 10 (1/2)

/-- Embedding of `np.argmax`: index of the first occurrence of the maximal element. -/
def argmaxIdx : List ℚ → ℕ
  | [] => 0
  | [_] => 0
  | a :: b :: t =>
    let j := argmaxIdx (b :: t)
    if (b :: t).getD j 0 ≤ a then 0 else j + 1

/-- Embedding of `detect_angle_by_projection`: evaluate `var` on every
candidate angle, pick the first angle of maximal variance, and report
confidence `min((max_variance - mean_variance)/mean_variance, 1.0)` when
`mean_variance > 0`, else `0`. -/
def detect_angle_by_projection (var : ℚ → ℚ) : ℚ × ℚ :=
  let angles := projection_candidates
  let variances := angles.map var
  let max_idx := argmaxIdx variances
  let best_angle := angles.getD max_idx 0
  let max_variance := variances.getD max_idx 0
  let mean_variance := variances.sum / (variances.length : ℚ)
  let confidence :=
    if 0 < mean_variance then min ((max_variance - mean_variance) / mean_variance) 1 else 0
  (best_angle, confidence)

/-! Section: Blank scan (src/2_Full_Angle_Scan/full_angle_scan.py, `scan_at_angle`)

A scan-line is the list of grayscale pixel values sampled along one
Bresenham ray (the trigonometric placement of the rays is floating point
and happens before this aggregation).  Lines with no in-image point are
skipped (`continue`); a kept line is blank iff its minimum pixel value is
at least 220; `blank_rate` is `blank_lines / len(scan_lines) * 100`. -/

/-- Python `min` over a scan-line's pixel values (the source only applies
it to nonempty lines; the default is irrelevant there). -/
def minPixel (pixels : List ℕ) : ℕ := pixels.min?.getD 0

/-- The source's blank test: `min_pixel >= 220`. -/
def lineIsBlank (pixels : List ℕ) : Bool := decide (220 ≤ minPixel pixels)

/-- The scan-lines kept by `scan_at_angle`: those with at least one valid point. -/
def validScanLines (scanLines : List (List ℕ)) : List (List ℕ) :=
  scanLines.filter fun l => decide (l ≠ [])

/-- Embedding of `blank_lines` of `scan_at_angle`: number of kept lines whose minimum is ≥ 220. -/
def blank_lines (scanLines : List (List ℕ)) : ℕ :=
  (validScanLines scanLines).countP lineIsBlank

/-- Embedding of `blank_rate` of `scan_at_angle`:
`(blank_lines / len(scan_lines) * 100) if len(scan_lines) > 0 else 0`. -/
def blank_rate (scanLines : List (List ℕ)) : ℚ :=
  if 0 < (validScanLines scanLines).length then
    (blank_lines scanLines : ℚ) / ((validScanLines scanLines).length : ℚ) * 100
  else 0

/-! Section: Sweep result selection (src/2_Full_Angle_Scan, `display_results`)

`display_results` sorts the per-angle stats dictionaries by `blank_rate`
descending and returns `sorted_results[0]`. -/

/-- The per-angle statistics dictionary produced by `scan_at_angle`. -/
structure ScanStats where
  angle : ℚ
  scan_lines : ℕ
  blanks : ℕ
  blank_rate : ℚ
  total_pixels : ℕ
  white_pixels : ℕ
  white_pixel_rate : ℚ
deriving DecidableEq

/-- Embedding of `sorted(results, key=lambda x: x['blank_rate'], reverse=True)`. -/
def sortByBlankRateDesc (results : List ScanStats) : List ScanStats :=
  results.insertionSort fun a b => b.blank_rate ≤ a.blank_rate

/-- The best record returned by `display_results`: head of the descending sort. -/
def display_results_best (results : List ScanStats) : Option ScanStats :=
  (sortByBlankRateDesc results).head?

/-- The part of a stats record that is allowed to influence selection:
its angle and its blank rate. -/
def statsKey (s : ScanStats) : ℚ × ℚ := (s.angle, s.blank_rate)

/-! Section: Hough bucket voting (src/1_Hough_Line_Detection/preprocess_hough.py, `visualize_line_detection`)

The filtered segment angles are rounded with `np.round(angles, 1)`
(round-half-to-even at 0.1° resolution), tallied with
`np.unique(..., return_counts=True)` (sorted unique values), and the
returned angle is `unique_angles[np.argmax(counts)]`. -/

/-- Round half to even (the rounding of `np.round`). -/
def roundHalfEven (q : ℚ) : ℤ :=
  let f := ⌊q⌋
  let r := q - (f : ℚ)
  if r < 1/2 then f
  else if 1/2 < r then f + 1
  else if f % 2 = 0 then f else f + 1

/-- Embedding of `np.round(a, 1)`: round half to even at one decimal. -/
def round01 (a : ℚ) : ℚ := ((roundHalfEven (10 * a) : ℤ) : ℚ) / 10

/-- Embedding of `np.unique`: the sorted list of distinct values. -/
def uniqueSorted (l : List ℚ) : List ℚ := (l.insertionSort (· ≤ ·)).dedup

/-- The first element of `l` attaining the maximal value of `f`
(`np.argmax` through a list of keyed values). -/
def firstMaxBy {α : Type} (f : α → ℚ) (l : List α) : Option α :=
  l.foldl
    (fun best c =>
      match best with
      | none => some c
      | some b => if f b < f c then some c else some b)
    none

/-- Embedding of the angle vote of `visualize_line_detection`: round each of
the filtered angles to 0.1°, tally distinct rounded values, return the
first (smallest) rounded angle of maximal count. -/
def most_common_angle (filteredAngles : List ℚ) : Option ℚ :=
  let rounded := filteredAngles.map round01
  let uniq := uniqueSorted rounded
  firstMaxBy (fun a => ((rounded.count a : ℕ) : ℚ)) uniq

/-- Follows the spec's words, for comparison with the source's
`most_common_angle`: keep the longest 20 segments (given as
(angle, length) pairs), bucket their angles at 0.1° resolution, and return
the bucket whose summed segment length is largest. -/
def spec_length_weighted_angle (segs : List (ℚ × ℚ)) : Option ℚ :=
  let kept := (segs.insertionSort fun a b => b.2 ≤ a.2).take 20
  let rounded := kept.map fun s => (round01 s.1, s.2)
  let uniq := uniqueSorted (rounded.map Prod.fst)
  firstMaxBy (fun a => ((rounded.filter fun s => s.1 = a).map Prod.snd).sum) uniq

/-! Section: Rotators

`rotate_image` in src/2_Scikit_Learn_PCA/preprocess_pca.py has the
identity fast path `if abs(angle) < 0.1: return image`; its warp branch
(`cv2.warpAffine` with bicubic interpolation) is abstracted as `warp`.
`rotate_image` in src/5_OpenCV_Advanced/preprocess_opencv.py has no fast
path; it always builds the rotation matrix, expands the canvas and warps.
The warp is embedded with exact rational bilinear interpolation
(`INTER_LINEAR`) and constant white border, with the cos/sin of the angle
passed in as rationals (exact at angle 0). -/

/-- A grayscale image: width, height, rows of pixel values. -/
structure Img where
  w : ℕ
  h : ℕ
  px : List (List ℚ)
deriving DecidableEq

/-- Pixel access with a constant border value outside the image. -/
def Img.at' (img : Img) (bv : ℚ) (x y : ℤ) : ℚ :=
  if 0 ≤ x ∧ x < (img.w : ℤ) ∧ 0 ≤ y ∧ y < (img.h : ℤ) then
    (img.px.getD y.toNat []).getD x.toNat 0
  else bv

/-- Exact bilinear interpolation at a rational source coordinate. -/
def bilinearSample (img : Img) (bv fx fy : ℚ) : ℚ :=
  let x0 : ℤ := ⌊fx⌋
  let y0 : ℤ := ⌊fy⌋
  let tx : ℚ := fx - (x0 : ℚ)
  let ty : ℚ := fy - (y0 : ℚ)
  (1 - tx) * (1 - ty) * img.at' bv x0 y0 + tx * (1 - ty) * img.at' bv (x0 + 1) y0 +
    (1 - tx) * ty * img.at' bv x0 (y0 + 1) + tx * ty * img.at' bv (x0 + 1) (y0 + 1)

/-- A 2×3 affine matrix. -/
structure Aff where
  m00 : ℚ
  m01 : ℚ
  m02 : ℚ
  m10 : ℚ
  m11 : ℚ
  m12 : ℚ

/-- Embedding of `cv2.getRotationMatrix2D(center, angle, 1.0)` with `c = cos angle`,
`s = sin angle` passed in exactly. -/
def getRotationMatrix2D (cx cy c s : ℚ) : Aff :=
  { m00 := c, m01 := s, m02 := (1 - c) * cx - s * cy,
    m10 := -s, m11 := c, m12 := s * cx + (1 - c) * cy }

/-- Embedding of `cv2.warpAffine(img, M, dsize, INTER_LINEAR, BORDER_CONSTANT, bv)`:
each destination pixel samples the source at `M⁻¹ · (x, y, 1)`. -/
def warpAffine (img : Img) (M : Aff) (dsize : ℕ × ℕ) (bv : ℚ) : Img :=
  let det := M.m00 * M.m11 - M.m01 * M.m10
  { w := dsize.1, h := dsize.2,
    px := (List.range dsize.2).map fun y : ℕ =>
      (List.range dsize.1).map fun x : ℕ =>
        let xs : ℚ := (x : ℚ) - M.m02
        let ys : ℚ := (y : ℚ) - M.m12
        bilinearSample img bv ((M.m11 * xs - M.m01 * ys) / det)
          ((-M.m10 * xs + M.m00 * ys) / det) }

/-- Embedding of src/5_OpenCV_Advanced `rotate_image` at an angle whose
cosine and sine are the rationals `c` and `s`: rotation matrix about
`(w//2, h//2)`, canvas expansion by `int(h*|sin| + w*|cos|)`, matrix
translation adjustment, and white-border warp.  There is no identity fast
path in the source. -/
def rotate_image_cv (c s : ℚ) (img : Img) : Img :=
  let cx : ℚ := ((img.w / 2 : ℕ) : ℚ)
  let cy : ℚ := ((img.h / 2 : ℕ) : ℚ)
  let M := getRotationMatrix2D cx cy c s
  let cosA := |M.m00|
  let sinA := |M.m01|
  let new_w : ℤ := ⌊(img.h : ℚ) * sinA + (img.w : ℚ) * cosA⌋
  let new_h : ℤ := ⌊(img.h : ℚ) * cosA + (img.w : ℚ) * sinA⌋
  let M' : Aff := { M with m02 := M.m02 + ((new_w : ℚ) / 2 - cx),
                           m12 := M.m12 + ((new_h : ℚ) / 2 - cy) }
  warpAffine img M' (new_w.toNat, new_h.toNat) 255

/-- Embedding of src/2_Scikit_Learn_PCA `rotate_image`: the identity fast
path `if abs(angle) < 0.1: return image`; the warp branch (bicubic,
border-replicate, floating point) is abstracted as `warp`. -/
def rotate_image_pca (warp : ℚ → Img → Img) (img : Img) (angle : ℚ) : Img :=
  if |angle| < 1/10 then img else warp angle img

/-! Section: Bresenham (src/2_Full_Angle_Scan/full_angle_scan.py, `bresenham_line`) -/

/-- The `while True` loop of `bresenham_line`, with explicit fuel (the
caller passes enough fuel for the loop to reach `(x1, y1)`; this is proved
below). -/
def bresLoop (fuel : ℕ) (x y x1 y1 dx dy sx sy err : ℤ) : List (ℤ × ℤ) :=
  match fuel with
  | 0 => []
  | fuel + 1 =>
    if x = x1 ∧ y = y1 then [(x, y)]
    else
      let e2 := 2 * err
      let x' := if -dy < e2 then x + sx else x
      let err1 := if -dy < e2 then err - dy else err
      let y' := if e2 < dx then y + sy else y
      let err2 := if e2 < dx then err1 + dx else err1
      (x, y) :: bresLoop fuel x' y' x1 y1 dx dy sx sy err2

/-- Embedding of `bresenham_line`: `dx = |x1-x0|`, `dy = |y1-y0|`, steps
`sx, sy` toward the endpoint, initial error `dx - dy`. -/
def bresenham_line (x0 y0 x1 y1 : ℤ) : List (ℤ × ℤ) :=
  let dx := |x1 - x0|
  let dy := |y1 - y0|
  let sx : ℤ := if x0 < x1 then 1 else -1
  let sy : ℤ := if y0 < y1 then 1 else -1
  bresLoop (dx + dy + 1).toNat x0 y0 x1 y1 dx dy sx sy (dx - dy)

/-! Section: Helper lemmas -/

lemma getD_zero_mem {l : List ℚ} {i : ℕ} (h : i < l.length) : l.getD i 0 ∈ l := by
  rw [List.getD_eq_getElem _ _ h]
  exact List.getElem_mem h

lemma npMedian_eq (l : List ℚ) :
    npMedian l =
      if (l.insertionSort (· ≤ ·)).length = 0 then 0
      else if (l.insertionSort (· ≤ ·)).length % 2 = 1 then
        (l.insertionSort (· ≤ ·)).getD ((l.insertionSort (· ≤ ·)).length / 2) 0
      else
        ((l.insertionSort (· ≤ ·)).getD ((l.insertionSort (· ≤ ·)).length / 2 - 1) 0 +
          (l.insertionSort (· ≤ ·)).getD ((l.insertionSort (· ≤ ·)).length / 2) 0) / 2 :=
  rfl

lemma npMedian_bounds (lo hi : ℚ) (l : List ℚ) (hne : l ≠ [])
    (hb : ∀ x ∈ l, lo ≤ x ∧ x ≤ hi) : lo ≤ npMedian l ∧ npMedian l ≤ hi := by
  have hperm := List.perm_insertionSort (· ≤ ·) l
  have hmem : ∀ x ∈ l.insertionSort (· ≤ ·), lo ≤ x ∧ x ≤ hi := fun x hx =>
    hb x (hperm.mem_iff.mp hx)
  have hn : (l.insertionSort (· ≤ ·)).length ≠ 0 := by
    rw [hperm.length_eq]
    exact fun h => hne (List.length_eq_zero.mp h)
  have key : ∀ i, i < (l.insertionSort (· ≤ ·)).length →
      lo ≤ (l.insertionSort (· ≤ ·)).getD i 0 ∧ (l.insertionSort (· ≤ ·)).getD i 0 ≤ hi :=
    fun i hi' => hmem _ (getD_zero_mem hi')
  rw [npMedian_eq, if_neg hn]
  by_cases hpar : (l.insertionSort (· ≤ ·)).length % 2 = 1
  · rw [if_pos hpar]
    exact key _ (by omega)
  · rw [if_neg hpar]
    have h1 := key ((l.insertionSort (· ≤ ·)).length / 2 - 1) (by omega)
    have h2 := key ((l.insertionSort (· ≤ ·)).length / 2) (by omega)
    constructor <;> [linarith [h1.1, h2.1]; linarith [h1.2, h2.2]]

lemma foldl_min_le_init : ∀ (t : List ℕ) (a : ℕ), t.foldl min a ≤ a := by
  intro t
  induction t with
  | nil => intro a; exact le_refl a
  | cons b t ih =>
    intro a
    calc (b :: t).foldl min a = t.foldl min (min a b) := rfl
    _ ≤ min a b := ih (min a b)
    _ ≤ a := min_le_left a b

lemma foldl_min_le_mem : ∀ (t : List ℕ) (a x : ℕ), x ∈ t → t.foldl min a ≤ x := by
  intro t
  induction t with
  | nil => intro a x hx; cases hx
  | cons b t ih =>
    intro a x hx
    rcases List.mem_cons.mp hx with h | h
    · subst h
      calc (x :: t).foldl min a = t.foldl min (min a x) := rfl
      _ ≤ min a x := foldl_min_le_init t (min a x)
      _ ≤ x := min_le_right a x
    · exact ih (min a b) x h

lemma le_foldl_min : ∀ (t : List ℕ) (a b : ℕ), b ≤ a → (∀ x ∈ t, b ≤ x) →
    b ≤ t.foldl min a := by
  intro t
  induction t with
  | nil => intro a b hba _; exact hba
  | cons c t ih =>
    intro a b hba hall
    have hbc : b ≤ c := hall c (List.mem_cons_self c t)
    exact ih (min a c) b (le_min hba hbc) fun x hx => hall x (List.mem_cons_of_mem c hx)

lemma minPixel_cons (a : ℕ) (t : List ℕ) : minPixel (a :: t) = t.foldl min a := rfl

lemma normalize_fold_range (a : ℚ) (h1 : -180 < a) (h2 : a ≤ 180) :
    (-90 ≤ normalize_pca_angle a ∧ normalize_pca_angle a ≤ 90) ∧
    normalize_line_angle a = normalize_pca_angle a ∧
    ((-45 ≤ normalize_pca_angle a ∧ normalize_pca_angle a ≤ 45) ↔
      (-135 ≤ a ∧ a ≤ 135)) := by
  simp only [normalize_pca_angle, normalize_line_angle]
  split_ifs with hgt hlt hlt2
  · exact absurd hgt (by linarith)
  · refine ⟨⟨by linarith, by linarith⟩, rfl, ?_⟩
    constructor
    · rintro ⟨u, v⟩; exact ⟨by linarith, by linarith⟩
    · rintro ⟨u, v⟩; exact ⟨by linarith, by linarith⟩
  · refine ⟨⟨by linarith, by linarith⟩, rfl, ?_⟩
    constructor
    · rintro ⟨u, v⟩; exact ⟨by linarith, by linarith⟩
    · rintro ⟨u, v⟩; exact ⟨by linarith, by linarith⟩
  · refine ⟨⟨by linarith, by linarith⟩, rfl, ?_⟩
    constructor
    · rintro ⟨u, v⟩; exact ⟨by linarith, by linarith⟩
    · rintro ⟨u, v⟩; exact ⟨by linarith, by linarith⟩

/-! Section: Claim theorems -/

/-- C1: the fused angle of `detect_angle_combined` is the confidence-weighted
mean `Σ(angle·confidence) / Σ(confidence)` whenever the confidences sum to a
positive value, it is `0` when they sum to `0`, and fusing the estimates
(10°, 0.8), (12°, 0.2) (with a third abstaining estimator) yields exactly
10.4° = 52/5. -/
theorem fuse_weighted_mean (a1 c1 a2 c2 a3 c3 : ℚ) :
    (0 < c1 + c2 + c3 →
      (detect_angle_combined a1 c1 a2 c2 a3 c3).1 =
        (a1 * c1 + a2 * c2 + a3 * c3) / (c1 + c2 + c3)) ∧
    (c1 + c2 + c3 = 0 → (detect_angle_combined a1 c1 a2 c2 a3 c3).1 = 0) ∧
    (detect_angle_combined 10 (4/5) 12 (1/5) 0 0).1 = 52/5 := by
  refine ⟨fun h => ?_, fun h => ?_, ?_⟩
  · simp only [detect_angle_combined, if_pos h]
  · simp [detect_angle_combined, h]
  · norm_num [detect_angle_combined]

/-- Witness for C1: the weighted-mean branch applied at the concrete
scenario estimates (10°, 0.8), (12°, 0.2), (a3, 0). -/
theorem fuse_weighted_mean_witness :
    (0 : ℚ) < 4/5 + 1/5 + 0 ∧
    (detect_angle_combined 10 (4/5) 12 (1/5) 0 0).1 =
      (10 * (4/5) + 12 * (1/5) + 0 * 0) / (4/5 + 1/5 + 0) :=
  ⟨by norm_num, (fuse_weighted_mean 10 (4/5) 12 (1/5) 0 0).1 (by norm_num)⟩

/-- C8: each estimator abstains with angle 0 and confidence 0 (and no
exception) when it finds no usable signal: fewer than 10 edge points (PCA),
no contours, and no Hough lines (`None` or an empty list). -/
theorem estimators_abstain :
    (∀ (pca : List (ℤ × ℤ) → ℚ × ℚ) (points : List (ℤ × ℤ)),
      points.length < 10 → detect_angle_by_pca pca points = (0, 0)) ∧
    (∀ (C : Type) (area rectAngle : C → ℚ) (imgArea : ℚ),
      detect_angle_by_contours area rectAngle imgArea [] = (0, 0)) ∧
    (∀ std : List ℚ → ℚ,
      detect_angle_by_lines std none = (0, 0) ∧
      detect_angle_by_lines std (some []) = (0, 0)) := by
  refine ⟨fun pca points h => ?_, fun C area rectAngle imgArea => rfl,
    fun std => ⟨rfl, ?_⟩⟩
  · simp [detect_angle_by_pca, h]
  · simp [detect_angle_by_lines]

/-- Witness for C8: the PCA estimator abstains on an empty point list, the
contour estimator on no contours, the line estimator on no lines. -/
theorem estimators_abstain_witness :
    ([] : List (ℤ × ℤ)).length < 10 ∧
    detect_angle_by_pca (fun _ => (1, 1)) [] = (0, 0) ∧
    detect_angle_by_contours (fun _ : Unit => 1) (fun _ => 1) 1 [] = (0, 0) ∧
    detect_angle_by_lines (fun _ => 1) none = (0, 0) :=
  ⟨by norm_num, estimators_abstain.1 (fun _ => (1, 1)) [] (by norm_num),
    estimators_abstain.2.1 Unit (fun _ => 1) (fun _ => 1) 1,
    (estimators_abstain.2.2 (fun _ => 1)).1⟩

/-- C2 counterexample: a raw `atan2` angle of 170° lies in the documented
atan2 output range (-180°, 180°], yet after the single ±90° fold the PCA
estimator returns 80°, outside [-45°, 45°]; the Hough-line estimator fed a
single segment with raw angle 170° likewise returns 80°. -/
theorem pca_fold_escapes_interval :
    detect_angle_by_pca (fun _ => (170, 1)) (List.replicate 10 ((0 : ℤ), (0 : ℤ))) = (80, 1) ∧
    detect_angle_by_lines (fun _ => 0) (some [170]) = (80, 1) ∧
    (-180 : ℚ) < 170 ∧ (170 : ℚ) ≤ 180 ∧
    ¬((-45 : ℚ) ≤ 80 ∧ (80 : ℚ) ≤ 45) := by
  refine ⟨?_, ?_, by norm_num, by norm_num, by norm_num⟩
  · norm_num [detect_angle_by_pca, normalize_pca_angle]
  · have hm : npMedian [(80 : ℚ)] = 80 := by
      rw [npMedian_eq]
      norm_num [List.insertionSort, List.orderedInsert]
    have hfold : normalize_line_angle 170 = 80 := by
      norm_num [normalize_line_angle]
    simp only [detect_angle_by_lines, List.length_cons, List.length_nil, List.map_cons,
      List.map_nil, hfold, hm]
    norm_num

/-- C2 amended: the single ±90° fold used by the PCA and Hough-line
estimators maps the full atan2 output range (-180°, 180°] into the closed
interval [-90°, 90°] (not [-45°, 45°]); the result lies in [-45°, 45°]
exactly when the raw angle lies in [-135°, 135°]; and the line estimator's
median of folded angles stays inside any interval containing them. -/
theorem angle_fold_range :
    (∀ a : ℚ, -180 < a → a ≤ 180 →
      (-90 ≤ normalize_pca_angle a ∧ normalize_pca_angle a ≤ 90) ∧
      normalize_line_angle a = normalize_pca_angle a ∧
      ((-45 ≤ normalize_pca_angle a ∧ normalize_pca_angle a ≤ 45) ↔
        (-135 ≤ a ∧ a ≤ 135))) ∧
    (∀ l : List ℚ, l ≠ [] → (∀ x ∈ l, -90 ≤ x ∧ x ≤ 90) →
      -90 ≤ npMedian l ∧ npMedian l ≤ 90) ∧
    (∀ (std : List ℚ → ℚ) (raws : List ℚ), raws ≠ [] →
      (∀ a ∈ raws, -180 < a ∧ a ≤ 180) →
      -90 ≤ (detect_angle_by_lines std (some raws)).1 ∧
        (detect_angle_by_lines std (some raws)).1 ≤ 90) := by
  refine ⟨fun a h1 h2 => normalize_fold_range a h1 h2,
    fun l hne hb => npMedian_bounds (-90) 90 l hne hb, ?_⟩
  intro std raws hne hb
  have hlen : ¬raws.length = 0 := fun h => hne (List.length_eq_zero.mp h)
  have heq : (detect_angle_by_lines std (some raws)).1 =
      npMedian (raws.map normalize_line_angle) := by
    simp only [detect_angle_by_lines, if_neg hlen]
  rw [heq]
  refine npMedian_bounds (-90) 90 _ (fun h => hne (List.map_eq_nil_iff.mp h)) ?_
  intro x hx
  obtain ⟨a, ha, rfl⟩ := List.mem_map.mp hx
  have hr := normalize_fold_range a (hb a ha).1 (hb a ha).2
  rw [hr.2.1]
  exact hr.1

/-- Witness for C2 amended: the fold and the median applied at raw angle 0
and at the singleton folded-angle list [0]. -/
theorem angle_fold_range_witness :
    (-90 ≤ normalize_pca_angle 0 ∧ normalize_pca_angle 0 ≤ 90) ∧
    (-90 ≤ npMedian [0] ∧ npMedian [0] ≤ 90) ∧
    (-90 ≤ (detect_angle_by_lines (fun _ => 0) (some [0])).1 ∧
      (detect_angle_by_lines (fun _ => 0) (some [0])).1 ≤ 90) :=
  ⟨((angle_fold_range.1 0 (by norm_num) (by norm_num)).1),
    angle_fold_range.2.1 [0] (by simp) (by norm_num),
    angle_fold_range.2.2 (fun _ => 0) [0] (by simp) (by norm_num)⟩

/-- C3 counterexample: for the two scan-lines [[0], [255]] (one blank, one
not), the code's `blank_rate` is 50 — a percentage — while
`blank_lines / total_lines` is 1/2; the claimed equation fails. -/
theorem blank_rate_is_percentage :
    blank_rate [[0], [255]] = 50 ∧
    (blank_lines [[0], [255]] : ℚ) / ((validScanLines [[0], [255]]).length : ℚ) = 1/2 ∧
    (50 : ℚ) ≠ 1/2 := by
  have hv : validScanLines [[0], [255]] = [[0], [255]] := rfl
  have hb : blank_lines [[0], [255]] = 1 := rfl
  refine ⟨?_, ?_, by norm_num⟩
  · rw [blank_rate, hv, hb]
    norm_num
  · rw [hv, hb]
    norm_num

/-- C3 amended: a kept scan-line is blank iff its minimum pixel value is
≥ 220 (equivalently, iff every pixel on it is ≥ 220), and the per-angle
statistic satisfies `blank_rate = 100 * blank_lines / total_lines` (a
percentage, not a fraction), with `blank_rate = 0` when no line survives. -/
theorem blank_scan_classification :
    (∀ l : List ℕ, l ≠ [] →
      ((lineIsBlank l = true ↔ 220 ≤ minPixel l) ∧
        (lineIsBlank l = true ↔ ∀ p ∈ l, 220 ≤ p))) ∧
    (∀ scanLines : List (List ℕ), 0 < (validScanLines scanLines).length →
      blank_rate scanLines =
        100 * (blank_lines scanLines : ℚ) / ((validScanLines scanLines).length : ℚ)) ∧
    (∀ scanLines : List (List ℕ), (validScanLines scanLines).length = 0 →
      blank_rate scanLines = 0) := by
  refine ⟨fun l hne => ⟨by simp [lineIsBlank], ?_⟩, fun s hs => ?_, fun s hs => ?_⟩
  · cases l with
    | nil => exact absurd rfl hne
    | cons a t =>
      simp only [lineIsBlank, minPixel_cons, decide_eq_true_eq]
      constructor
      · intro hmin p hp
        rcases List.mem_cons.mp hp with h | h
        · exact le_trans hmin (by subst h; exact foldl_min_le_init t p)
        · exact le_trans hmin (foldl_min_le_mem t a p h)
      · intro hall
        exact le_foldl_min t a 220 (hall a (List.mem_cons_self a t))
          fun x hx => hall x (List.mem_cons_of_mem a hx)
  · rw [blank_rate, if_pos hs]
    ring
  · rw [blank_rate, if_neg (by omega)]

/-- Witness for C3 amended: the blank test and the percentage formula at
the concrete scan-lines [[255], [0]]. -/
theorem blank_scan_classification_witness :
    (lineIsBlank [255] = true ↔ ∀ p ∈ [255], 220 ≤ p) ∧
    blank_rate [[255], [0]] =
      100 * (blank_lines [[255], [0]] : ℚ) / ((validScanLines [[255], [0]]).length : ℚ) :=
  ⟨(blank_scan_classification.1 [255] (by simp)).2,
    blank_scan_classification.2.1 [[255], [0]] (by norm_num [validScanLines])⟩

/-- C6 counterexample: with the largest contour's minAreaRect angle equal
to -45 (inside the documented raw range [-90, 0)), the geometry estimator
returns -45, which is not in the claimed interval (-45°, 45°]. -/
theorem contours_remap_boundary :
    detect_angle_by_contours (fun _ : Unit => 1) (fun _ => -45) 2 [()] = (-45, 1/2) ∧
    (-90 : ℚ) ≤ -45 ∧ (-45 : ℚ) < 0 ∧
    ¬((-45 : ℚ) < -45 ∧ (-45 : ℚ) ≤ 45) := by
  refine ⟨?_, by norm_num, by norm_num, by norm_num⟩
  norm_num [detect_angle_by_contours, maxBy]

/-- C6 amended: for a nonempty contour list whose largest contour reports a
minAreaRect angle in the documented range [-90, 0), the remapped angle of
`detect_angle_by_contours` lies in [-45°, 45°) (closed at -45, open at 45),
and for a nonnegative contour area and positive image area the clamped
confidence lies in [0, 1]. -/
theorem contours_range_confidence {C : Type} (area rectAngle : C → ℚ) (imgArea : ℚ)
    (c : C) (cs : List C)
    (hraw1 : -90 ≤ rectAngle (maxBy area c cs)) (hraw2 : rectAngle (maxBy area c cs) < 0)
    (harea : 0 ≤ area (maxBy area c cs)) (himg : 0 < imgArea) :
    (-45 ≤ (detect_angle_by_contours area rectAngle imgArea (c :: cs)).1 ∧
      (detect_angle_by_contours area rectAngle imgArea (c :: cs)).1 < 45) ∧
    (0 ≤ (detect_angle_by_contours area rectAngle imgArea (c :: cs)).2 ∧
      (detect_angle_by_contours area rectAngle imgArea (c :: cs)).2 ≤ 1) := by
  have heq : detect_angle_by_contours area rectAngle imgArea (c :: cs) =
      (if rectAngle (maxBy area c cs) < -45 then 90 + rectAngle (maxBy area c cs)
        else rectAngle (maxBy area c cs),
        min (area (maxBy area c cs) / imgArea) 1) := rfl
  rw [heq]
  refine ⟨?_, ?_⟩
  · simp only
    split_ifs with h
    · exact ⟨by linarith, by linarith⟩
    · exact ⟨by linarith, by linarith⟩
  · exact ⟨le_min (div_nonneg harea himg.le) zero_le_one, min_le_right _ 1⟩

/-- Witness for C6 amended: a single contour with raw angle -60, area 1,
image area 2. -/
theorem contours_range_confidence_witness :
    ((-90 : ℚ) ≤ -60 ∧ (-60 : ℚ) < 0 ∧ (0 : ℚ) ≤ 1 ∧ (0 : ℚ) < 2) ∧
    ((-45 ≤ (detect_angle_by_contours (fun _ : Unit => 1) (fun _ => -60) 2 [()]).1 ∧
      (detect_angle_by_contours (fun _ : Unit => 1) (fun _ => -60) 2 [()]).1 < 45) ∧
      (0 ≤ (detect_angle_by_contours (fun _ : Unit => 1) (fun _ => -60) 2 [()]).2 ∧
        (detect_angle_by_contours (fun _ : Unit => 1) (fun _ => -60) 2 [()]).2 ≤ 1)) :=
  ⟨⟨by norm_num, by norm_num, by norm_num, by norm_num⟩,
    contours_range_confidence (fun _ : Unit => 1) (fun _ => -60) 2 () []
      (by norm_num [maxBy]) (by norm_num [maxBy]) (by norm_num [maxBy]) (by norm_num)⟩

lemma argmaxIdx_lt : ∀ l : List ℚ, l ≠ [] → argmaxIdx l < l.length := by
  intro l
  induction l with
  | nil => exact fun h => absurd rfl h
  | cons a t ih =>
    intro _
    cases t with
    | nil => simp [argmaxIdx]
    | cons b t2 =>
      simp only [argmaxIdx]
      split_ifs with h
      · simp
      · have := ih (by simp)
        simp only [List.length_cons] at *
        omega

lemma argmaxIdx_le : ∀ (l : List ℚ) (i : ℕ), i < l.length →
    l.getD i 0 ≤ l.getD (argmaxIdx l) 0 := by
  intro l
  induction l with
  | nil => intro i hi; simp at hi
  | cons a t ih =>
    intro i hi
    cases t with
    | nil =>
      cases i with
      | zero => simp [argmaxIdx]
      | succ i' => simp at hi
    | cons b t2 =>
      simp only [argmaxIdx]
      split_ifs with h
      · cases i with
        | zero => simp
        | succ i' =>
          simp only [List.getD_cons_succ, List.getD_cons_zero]
          exact le_trans (ih i' (by simpa using hi)) h
      · cases i with
        | zero =>
          simp only [List.getD_cons_succ, List.getD_cons_zero]
          exact le_of_lt (not_le.mp h)
        | succ i' =>
          simp only [List.getD_cons_succ]
          exact ih i' (by simpa using hi)

lemma sum_le_length_mul (l : List ℚ) (m : ℚ) (h : ∀ x ∈ l, x ≤ m) :
    l.sum ≤ (l.length : ℚ) * m := by
  induction l with
  | nil => simp
  | cons a t ih =>
    have ha : a ≤ m := h a (List.mem_cons_self a t)
    have ht := ih fun x hx => h x (List.mem_cons_of_mem a hx)
    simp only [List.sum_cons, List.length_cons]
    push_cast
    linarith

lemma projection_candidates_eq :
    projection_candidates = (List.range 40).map fun k : ℕ => -10 + (k : ℚ) * (1/2) := by
  have h : Int.toNat ⌈((10 : ℚ) - -10) / (1/2)⌉ = 40 := by
    have h40 : ⌈((10 : ℚ) - -10) / (1/2)⌉ = 40 := by norm_num
    rw [h40]
    rfl
  rw [projection_candidates, arangeQ, h]

lemma projection_candidates_length : projection_candidates.length = 40 := by
  rw [projection_candidates_eq, List.length_map, List.length_range]

/-- C7 counterexample: the projection estimator's candidate grid
`np.arange(-10, 10, 0.5)` does not contain the angle +10° (the window is
half-open), although it does contain 9.5° and has the expected 40 entries;
the claimed closed window [-10°, +10°] is not fully evaluated. -/
theorem projection_window_excludes_ten :
    (10 : ℚ) ∉ projection_candidates ∧
    (19/2 : ℚ) ∈ projection_candidates ∧
    (-10 : ℚ) ∈ projection_candidates ∧
    projection_candidates.length = 40 := by
  refine ⟨?_, ?_, ?_, projection_candidates_length⟩
  · rw [projection_candidates_eq]
    intro hmem
    obtain ⟨k, hk, he⟩ := List.mem_map.mp hmem
    rw [List.mem_range] at hk
    have hq : (k : ℚ) = 40 := by linarith
    have : (k : ℕ) = 40 := by exact_mod_cast hq
    omega
  · rw [projection_candidates_eq]
    exact List.mem_map.mpr ⟨39, by simp, by norm_num⟩
  · rw [projection_candidates_eq]
    exact List.mem_map.mpr ⟨0, by simp, by norm_num⟩

/-- C7 amended: the projection estimator returns a candidate angle from the
half-open grid `np.arange(-10, 10, 0.5)` whose variance is maximal over all
candidates, and its confidence lies in [0, 1]. -/
theorem projection_argmax_variance (var : ℚ → ℚ) :
    (detect_angle_by_projection var).1 ∈ projection_candidates ∧
    (∀ a ∈ projection_candidates, var a ≤ var (detect_angle_by_projection var).1) ∧
    (0 ≤ (detect_angle_by_projection var).2 ∧ (detect_angle_by_projection var).2 ≤ 1) := by
  have hlen : (projection_candidates.map var).length = projection_candidates.length :=
    List.length_map _ _
  have hne : projection_candidates ≠ [] := by
    intro h
    have := projection_candidates_length
    rw [h] at this
    simp at this
  have hnem : projection_candidates.map var ≠ [] := by
    intro h
    exact hne (List.map_eq_nil_iff.mp h)
  have hidx : argmaxIdx (projection_candidates.map var) < projection_candidates.length := by
    have := argmaxIdx_lt (projection_candidates.map var) hnem
    omega
  have hbest : (detect_angle_by_projection var).1 =
      projection_candidates.getD (argmaxIdx (projection_candidates.map var)) 0 := rfl
  have hvarbest :
      var (projection_candidates.getD (argmaxIdx (projection_candidates.map var)) 0) =
        (projection_candidates.map var).getD (argmaxIdx (projection_candidates.map var)) 0 := by
    rw [List.getD_eq_getElem _ _ hidx, List.getD_eq_getElem _ _ (by omega), List.getElem_map]
  refine ⟨?_, ?_, ?_⟩
  · rw [hbest]
    exact getD_zero_mem hidx
  · intro a ha
    obtain ⟨i, hi, hget⟩ := List.mem_iff_getElem.mp ha
    rw [hbest, hvarbest]
    have : var a = (projection_candidates.map var).getD i 0 := by
      rw [List.getD_eq_getElem _ _ (by omega), List.getElem_map, hget]
    rw [this]
    exact argmaxIdx_le _ i (by omega)
  · have hconf : (detect_angle_by_projection var).2 =
        if 0 < (projection_candidates.map var).sum / (((projection_candidates.map var).length : ℕ) : ℚ)
        then min (((projection_candidates.map var).getD (argmaxIdx (projection_candidates.map var)) 0 -
            (projection_candidates.map var).sum / (((projection_candidates.map var).length : ℕ) : ℚ)) /
            ((projection_candidates.map var).sum / (((projection_candidates.map var).length : ℕ) : ℚ))) 1
        else 0 := rfl
    rw [hconf]
    split_ifs with hmean
    · have hmax : ∀ x ∈ projection_candidates.map var,
          x ≤ (projection_candidates.map var).getD (argmaxIdx (projection_candidates.map var)) 0 := by
        intro x hx
        obtain ⟨i, hi, hget⟩ := List.mem_iff_getElem.mp hx
        have : x = (projection_candidates.map var).getD i 0 := by
          rw [List.getD_eq_getElem _ _ hi, hget]
        rw [this]
        exact argmaxIdx_le _ i hi
      have hsum := sum_le_length_mul (projection_candidates.map var) _ hmax
      have hlpos : (0 : ℚ) < (((projection_candidates.map var).length : ℕ) : ℚ) := by
        rw [hlen, projection_candidates_length]
        norm_num
      have hmeanle : (projection_candidates.map var).sum / (((projection_candidates.map var).length : ℕ) : ℚ) ≤
          (projection_candidates.map var).getD (argmaxIdx (projection_candidates.map var)) 0 := by
        rw [div_le_iff₀ hlpos]
        linarith [hsum]
      constructor
      · exact le_min (div_nonneg (by linarith) (le_of_lt hmean)) zero_le_one
      · exact min_le_right _ 1
    · norm_num

/-- C5 counterexample: the OpenCV-advanced `rotate_image` has no identity
fast path; at angle 0 (cos = 1, sin = 0) on a 1×1 image with a single
black pixel it resamples with a half-pixel offset against the white
border and returns a different image. -/
theorem rotate_zero_not_identity_cv :
    rotate_image_cv 1 0 ⟨1, 1, [[0]]⟩ ≠ ⟨1, 1, [[0]]⟩ := by
  have hv : rotate_image_cv 1 0 ⟨1, 1, [[0]]⟩ = ⟨1, 1, [[765/4]]⟩ := by
    have hr : List.range 1 = [0] := rfl
    have hfl : ⌊-(1/2 : ℚ)⌋ = -1 := by
      rw [Int.floor_eq_iff]
      constructor
      · norm_num
      · norm_num
    have hfr : Int.fract (-(1/2 : ℚ)) = 1/2 := by
      rw [Int.fract, hfl]
      norm_num
    simp only [rotate_image_cv, warpAffine, getRotationMatrix2D, bilinearSample, Img.at']
    norm_num
    simp only [hr, List.flatMap_cons, List.flatMap_nil, List.map_cons, List.map_nil,
      List.nil_append, Nat.cast_zero]
    norm_num [hfl, hfr]
  rw [hv]
  intro h
  have h2 := congrArg Img.px h
  simp only [List.cons.injEq, and_true] at h2
  norm_num at h2

/-- Witness for C7 amended: the estimator applied to the constant-zero
variance backend. -/
theorem projection_argmax_variance_witness :
    (detect_angle_by_projection (fun _ => 0)).1 ∈ projection_candidates ∧
    (0 ≤ (detect_angle_by_projection (fun _ => 0)).2 ∧
      (detect_angle_by_projection (fun _ => 0)).2 ≤ 1) :=
  ⟨(projection_argmax_variance (fun _ => 0)).1,
    (projection_argmax_variance (fun _ => 0)).2.2⟩

/-- C5 amended: zero-angle rotation returns the input image unchanged for
the rotate implementations that have the identity fast path (the PCA-style
`rotate_image` with `abs(angle) < 0.1`), for every warp backend; the
OpenCV-advanced `rotate_image` lacks the fast path and violates the
bit-for-bit identity (see the counterexample). -/
theorem rotate_zero_identity_fast_path (warp : ℚ → Img → Img) (img : Img) :
    rotate_image_pca warp img 0 = img := by
  rw [rotate_image_pca, if_pos]
  rw [abs_zero]
  norm_num

lemma foldl_firstMax_spec {α : Type} (f : α → ℚ) :
    ∀ (l : List α) (b : α), ∃ m,
      l.foldl
        (fun best c =>
          match best with
          | none => some c
          | some b' => if f b' < f c then some c else some b')
        (some b) = some m ∧
      (m = b ∨ m ∈ l) ∧ f b ≤ f m ∧ ∀ c ∈ l, f c ≤ f m := by
  intro l
  induction l with
  | nil => exact fun b => ⟨b, rfl, Or.inl rfl, le_refl _, by simp⟩
  | cons c t ih =>
    intro b
    by_cases h : f b < f c
    · obtain ⟨m, hm, hmem, hle, hall⟩ := ih c
      refine ⟨m, ?_, ?_, ?_, ?_⟩
      · simpa [h] using hm
      · rcases hmem with h' | h'
        · exact Or.inr (h' ▸ List.mem_cons_self c t)
        · exact Or.inr (List.mem_cons_of_mem c h')
      · linarith
      · intro x hx
        rcases List.mem_cons.mp hx with h' | h'
        · subst h'; exact hle
        · exact hall x h'
    · obtain ⟨m, hm, hmem, hle, hall⟩ := ih b
      refine ⟨m, ?_, ?_, hle, ?_⟩
      · simpa [h] using hm
      · rcases hmem with h' | h'
        · exact Or.inl h'
        · exact Or.inr (List.mem_cons_of_mem c h')
      · intro x hx
        rcases List.mem_cons.mp hx with h' | h'
        · subst h'
          exact le_trans (not_lt.mp h) hle
        · exact hall x h'

lemma firstMaxBy_spec {α : Type} (f : α → ℚ) (l : List α) (hne : l ≠ []) :
    ∃ m, firstMaxBy f l = some m ∧ m ∈ l ∧ ∀ b ∈ l, f b ≤ f m := by
  cases l with
  | nil => exact absurd rfl hne
  | cons a t =>
    obtain ⟨m, hm, hmem, hle, hall⟩ := foldl_firstMax_spec f t a
    refine ⟨m, ?_, ?_, ?_⟩
    · rw [firstMaxBy, List.foldl_cons]
      exact hm
    · rcases hmem with h | h
      · exact h ▸ List.mem_cons_self a t
      · exact List.mem_cons_of_mem a h
    · intro b hb
      rcases List.mem_cons.mp hb with h | h
      · subst h; exact hle
      · exact hall b h

lemma round01_zero : round01 0 = 0 := by
  norm_num [round01, roundHalfEven]

lemma round01_fortyfive : round01 45 = 45 := by
  have h450 : (10 : ℚ) * 45 = 450 := by norm_num
  have hf : ⌊(450 : ℚ)⌋ = 450 := by norm_num
  norm_num [round01, roundHalfEven, h450, hf]

/-- C4 counterexample: on three segments with angles [0°, 45°, 45°] and
lengths [100, 1, 1], the source's vote (`most_common_angle`) returns the
45° bucket (count 2), while the bucket of largest summed segment length is
0° (length 100 vs 2); the claimed length-weighted selection (embedded from
the spec's words as `spec_length_weighted_angle`) disagrees with the code. -/
theorem line_vote_counts_not_lengths :
    most_common_angle [0, 45, 45] = some 45 ∧
    spec_length_weighted_angle [(0, 100), (45, 1), (45, 1)] = some 0 ∧
    some (45 : ℚ) ≠ some (0 : ℚ) := by
  have huniq : uniqueSorted [0, 45, 45] = [0, 45] := by
    norm_num [uniqueSorted, List.insertionSort, List.orderedInsert, List.dedup_cons_of_mem,
      List.dedup_cons_of_not_mem]
  refine ⟨?_, ?_, by norm_num⟩
  · simp only [most_common_angle, List.map_cons, List.map_nil, round01_zero, round01_fortyfive,
      huniq]
    norm_num [firstMaxBy, List.count_cons, List.count_nil]
  · simp only [spec_length_weighted_angle]
    norm_num [List.insertionSort, List.orderedInsert, List.take, round01_zero, round01_fortyfive,
      huniq, firstMaxBy, List.filter, List.count_cons]

/-- C4 amended: `visualize_line_detection` uses all surviving (filtered)
segments — the number 20 in the source only limits console display — and
returns a 0.1°-rounded bucket whose segment count (not summed length) is
maximal among all buckets. -/
theorem most_common_angle_max_count (angles : List ℚ) (hne : angles ≠ []) :
    ∃ m, most_common_angle angles = some m ∧
      m ∈ uniqueSorted (angles.map round01) ∧
      ∀ b ∈ uniqueSorted (angles.map round01),
        (angles.map round01).count b ≤ (angles.map round01).count m := by
  have hmapne : angles.map round01 ≠ [] := by
    intro h
    exact hne (List.map_eq_nil_iff.mp h)
  have hsortne : (angles.map round01).insertionSort (· ≤ ·) ≠ [] := by
    intro h
    have := (List.perm_insertionSort (· ≤ ·) (angles.map round01)).length_eq
    rw [h] at this
    exact hmapne (List.length_eq_zero.mp this.symm)
  have huniqne : uniqueSorted (angles.map round01) ≠ [] := by
    rw [uniqueSorted]
    intro h
    exact hsortne ((List.dedup_eq_nil _).mp h)
  obtain ⟨m, hm, hmem, hall⟩ :=
    firstMaxBy_spec (fun a => (((angles.map round01).count a : ℕ) : ℚ))
      (uniqueSorted (angles.map round01)) huniqne
  refine ⟨m, hm, hmem, fun b hb => ?_⟩
  exact_mod_cast hall b hb

/-- Witness for C4 amended: the vote applied to the singleton angle list [0]. -/
theorem most_common_angle_max_count_witness :
    ([0] : List ℚ) ≠ [] ∧
    ∃ m, most_common_angle [0] = some m ∧
      m ∈ uniqueSorted (([0] : List ℚ).map round01) ∧
      ∀ b ∈ uniqueSorted (([0] : List ℚ).map round01),
        (([0] : List ℚ).map round01).count b ≤ (([0] : List ℚ).map round01).count m :=
  ⟨by simp, most_common_angle_max_count [0] (by simp)⟩

lemma map_orderedInsert_key (a : ScanStats) :
    ∀ l : List ScanStats,
      (List.orderedInsert (fun x y => y.blank_rate ≤ x.blank_rate) a l).map statsKey =
        List.orderedInsert (fun x y : ℚ × ℚ => y.2 ≤ x.2) (statsKey a) (l.map statsKey) := by
  intro l
  induction l with
  | nil => rfl
  | cons b t ih =>
    simp only [List.orderedInsert, List.map_cons]
    by_cases h : b.blank_rate ≤ a.blank_rate
    · rw [if_pos h, if_pos (show (statsKey b).2 ≤ (statsKey a).2 from h)]
      rfl
    · rw [if_neg h, if_neg (show ¬(statsKey b).2 ≤ (statsKey a).2 from h), List.map_cons, ih]

lemma map_insertionSort_key :
    ∀ l : List ScanStats,
      (sortByBlankRateDesc l).map statsKey =
        List.insertionSort (fun x y : ℚ × ℚ => y.2 ≤ x.2) (l.map statsKey) := by
  intro l
  induction l with
  | nil => rfl
  | cons a t ih =>
    rw [sortByBlankRateDesc, List.insertionSort, List.map_cons, List.insertionSort,
      map_orderedInsert_key]
    rw [sortByBlankRateDesc] at ih
    rw [ih]

/-- C9: for a nonempty sweep result list, `display_results` selects a record
of maximal `blank_rate`; and for any two result lists that agree on every
entry's angle and blank_rate (but may differ arbitrarily in
white_pixel_rate and the other diagnostic fields), the selected winning
angle is the same. -/
theorem blank_rate_selection :
    (∀ results : List ScanStats, results ≠ [] →
      ∃ b, display_results_best results = some b ∧ b ∈ results ∧
        ∀ s ∈ results, s.blank_rate ≤ b.blank_rate) ∧
    (∀ l1 l2 : List ScanStats, l1.map statsKey = l2.map statsKey →
      Option.map ScanStats.angle (display_results_best l1) =
        Option.map ScanStats.angle (display_results_best l2)) := by
  constructor
  · intro results hne
    haveI : IsTotal ScanStats (fun a b => b.blank_rate ≤ a.blank_rate) :=
      ⟨fun a b => (le_total b.blank_rate a.blank_rate).imp id id⟩
    haveI : IsTrans ScanStats (fun a b => b.blank_rate ≤ a.blank_rate) :=
      ⟨fun _ _ _ h1 h2 => le_trans h2 h1⟩
    have hsorted := List.sorted_insertionSort (fun a b => b.blank_rate ≤ a.blank_rate) results
    have hperm := List.perm_insertionSort (fun a b => b.blank_rate ≤ a.blank_rate) results
    cases hs : List.insertionSort (fun a b => b.blank_rate ≤ a.blank_rate) results with
    | nil =>
      rw [hs] at hperm
      exact absurd hperm.nil_eq.symm hne
    | cons b t =>
      rw [hs] at hsorted hperm
      refine ⟨b, ?_, ?_, ?_⟩
      · rw [display_results_best, sortByBlankRateDesc, hs]
        rfl
      · exact hperm.mem_iff.mp (List.mem_cons_self b t)
      · intro s hsmem
        rcases List.mem_cons.mp (hperm.mem_iff.mpr hsmem) with h | h
        · subst h; exact le_refl _
        · exact (List.sorted_cons.mp hsorted).1 s h
  · intro l1 l2 hkey
    have h1 := map_insertionSort_key l1
    have h2 := map_insertionSort_key l2
    rw [hkey] at h1
    have hmap : (sortByBlankRateDesc l1).map statsKey = (sortByBlankRateDesc l2).map statsKey :=
      h1.trans h2.symm
    have hhead : Option.map statsKey (sortByBlankRateDesc l1).head? =
        Option.map statsKey (sortByBlankRateDesc l2).head? := by
      rw [← List.head?_map, ← List.head?_map, hmap]
    have hcomp : ∀ o : Option ScanStats,
        Option.map ScanStats.angle o = Option.map Prod.fst (Option.map statsKey o) := by
      intro o
      cases o with
      | none => rfl
      | some s => rfl
    rw [display_results_best, display_results_best, hcomp, hcomp, hhead]

/-- Witness for C9: selection over a singleton list, and invariance of the
winning angle under a change of the diagnostic white-pixel fields only. -/
theorem blank_rate_selection_witness :
    ([(⟨1, 2, 3, 50, 4, 5, 6⟩ : ScanStats)] ≠ []) ∧
    (∃ b, display_results_best [(⟨1, 2, 3, 50, 4, 5, 6⟩ : ScanStats)] = some b ∧
      b ∈ [(⟨1, 2, 3, 50, 4, 5, 6⟩ : ScanStats)] ∧
      ∀ s ∈ [(⟨1, 2, 3, 50, 4, 5, 6⟩ : ScanStats)], s.blank_rate ≤ b.blank_rate) ∧
    Option.map ScanStats.angle
        (display_results_best [(⟨1, 2, 3, 50, 4, 5, 6⟩ : ScanStats)]) =
      Option.map ScanStats.angle
        (display_results_best [(⟨1, 2, 3, 50, 40, 50, 60⟩ : ScanStats)]) :=
  ⟨by simp,
    blank_rate_selection.1 [(⟨1, 2, 3, 50, 4, 5, 6⟩ : ScanStats)] (by simp),
    blank_rate_selection.2 [(⟨1, 2, 3, 50, 4, 5, 6⟩ : ScanStats)]
      [(⟨1, 2, 3, 50, 40, 50, 60⟩ : ScanStats)] rfl⟩

lemma bresLoop_spec :
    ∀ (fuel : ℕ) (x y x1 y1 dx dy sx sy err u v : ℤ),
      (sx = 1 ∨ sx = -1) → (sy = 1 ∨ sy = -1) →
      x1 = x + sx * u → y1 = y + sy * v →
      0 ≤ u → 0 ≤ v → u ≤ dx → v ≤ dy →
      err = dx - dy + u * dy - v * dx →
      u + v < (fuel : ℤ) →
      (bresLoop fuel x y x1 y1 dx dy sx sy err).head? = some (x, y) ∧
      (bresLoop fuel x y x1 y1 dx dy sx sy err).getLast? = some (x1, y1) ∧
      List.Chain' (fun p q : ℤ × ℤ => |q.1 - p.1| ≤ 1 ∧ |q.2 - p.2| ≤ 1)
        (bresLoop fuel x y x1 y1 dx dy sx sy err) := by
  intro fuel
  induction fuel with
  | zero =>
    intro x y x1 y1 dx dy sx sy err u v _ _ _ _ hu hv _ _ _ hfuel
    exfalso
    norm_num at hfuel
    linarith
  | succ fuel ih =>
    intro x y x1 y1 dx dy sx sy err u v hsx hsy hx hy hu hv hud hvd herr hfuel
    have hdx : 0 ≤ dx := le_trans hu hud
    have hdy : 0 ≤ dy := le_trans hv hvd
    have hsx1 : sx * sx = 1 := by rcases hsx with rfl | rfl <;> norm_num
    have hsy1 : sy * sy = 1 := by rcases hsy with rfl | rfl <;> norm_num
    by_cases hend : x = x1 ∧ y = y1
    · have hL : bresLoop (fuel + 1) x y x1 y1 dx dy sx sy err = [(x, y)] := by
        simp only [bresLoop, if_pos hend]
      rw [hL]
      refine ⟨rfl, ?_, List.chain'_singleton _⟩
      rw [hend.1, hend.2]
      rfl
    · -- u and v cannot both be zero
      have hnz : 0 < u + v := by
        rcases lt_or_eq_of_le hu with h | h
        · linarith
        · rcases lt_or_eq_of_le hv with h' | h'
          · linarith
          · exfalso
            apply hend
            constructor
            · rw [hx, ← h, mul_zero, add_zero]
            · rw [hy, ← h', mul_zero, add_zero]
      -- if x has arrived, the x-step condition cannot fire
      have hxarrive : u = 0 → ¬(-dy < 2 * err) := by
        intro hu0 hcx
        have hv1 : 1 ≤ v := by omega
        have hdy1 : 1 ≤ dy := le_trans hv1 hvd
        have hprod : 0 ≤ dx * (v - 1) := mul_nonneg hdx (by linarith)
        rw [herr, hu0] at hcx
        nlinarith
      -- if y has arrived, the y-step condition cannot fire
      have hyarrive : v = 0 → ¬(2 * err < dx) := by
        intro hv0 hcy
        have hu1 : 1 ≤ u := by omega
        have hdx1 : 1 ≤ dx := le_trans hu1 hud
        have hprod : 0 ≤ dy * (u - 1) := mul_nonneg hdy (by linarith)
        rw [herr, hv0] at hcy
        nlinarith
      -- at least one of the two step conditions fires
      have hfire : (-dy < 2 * err) ∨ (2 * err < dx) := by
        by_contra hcon
        push_neg at hcon
        have h1 : dx ≤ -dy := le_trans hcon.2 hcon.1
        have hdx0 : dx = 0 := by omega
        have hdy0 : dy = 0 := by omega
        have hu0 : u = 0 := by omega
        have hv0 : v = 0 := by omega
        apply hend
        constructor
        · rw [hx, hu0, mul_zero, add_zero]
        · rw [hy, hv0, mul_zero, add_zero]
      have hstep : ∀ X Y E U V : ℤ,
          bresLoop (fuel + 1) x y x1 y1 dx dy sx sy err =
            (x, y) :: bresLoop fuel X Y x1 y1 dx dy sx sy E →
          (X = x ∨ X = x + sx) → (Y = y ∨ Y = y + sy) →
          x1 = X + sx * U → y1 = Y + sy * V →
          0 ≤ U → 0 ≤ V → U ≤ dx → V ≤ dy →
          E = dx - dy + U * dy - V * dx →
          U + V < (fuel : ℤ) →
          (bresLoop (fuel + 1) x y x1 y1 dx dy sx sy err).head? = some (x, y) ∧
          (bresLoop (fuel + 1) x y x1 y1 dx dy sx sy err).getLast? = some (x1, y1) ∧
          List.Chain' (fun p q : ℤ × ℤ => |q.1 - p.1| ≤ 1 ∧ |q.2 - p.2| ≤ 1)
            (bresLoop (fuel + 1) x y x1 y1 dx dy sx sy err) := by
        intro X Y E U V hL hX hY hXx hYy hU hV hUd hVd hE hFuel
        obtain ⟨ihh, ihl, ihc⟩ :=
          ih X Y x1 y1 dx dy sx sy E U V hsx hsy hXx hYy hU hV hUd hVd hE hFuel
        rw [hL]
        cases hrec : bresLoop fuel X Y x1 y1 dx dy sx sy E with
        | nil =>
          rw [hrec] at ihh
          simp at ihh
        | cons p t =>
          rw [hrec] at ihh ihl ihc
          have hp : p = (X, Y) := by
            simpa using ihh
          refine ⟨rfl, ?_, ?_⟩
          · rw [List.getLast?_cons_cons]
            exact ihl
          · rw [List.chain'_cons]
            refine ⟨?_, ihc⟩
            rw [hp]
            constructor
            · rcases hX with rfl | rfl
              · simp
              · have h1 : x + sx - x = sx := by ring
                rw [h1]
                rcases hsx with rfl | rfl <;> norm_num
            · rcases hY with rfl | rfl
              · simp
              · have h1 : y + sy - y = sy := by ring
                rw [h1]
                rcases hsy with rfl | rfl <;> norm_num
      by_cases hcx : -dy < 2 * err
      · by_cases hcy : 2 * err < dx
        · -- both x and y step
          have hu1 : 1 ≤ u := by
            by_contra hc
            exact hxarrive (by omega) hcx
          have hv1 : 1 ≤ v := by
            by_contra hc
            exact hyarrive (by omega) hcy
          have hL : bresLoop (fuel + 1) x y x1 y1 dx dy sx sy err =
              (x, y) :: bresLoop fuel (x + sx) (y + sy) x1 y1 dx dy sx sy (err - dy + dx) := by
            simp only [bresLoop, if_neg hend, if_pos hcx, if_pos hcy]
          refine hstep (x + sx) (y + sy) (err - dy + dx) (u - 1) (v - 1) hL
            (Or.inr rfl) (Or.inr rfl) (by rw [hx]; ring) (by rw [hy]; ring)
            (by linarith) (by linarith) (by linarith) (by linarith)
            (by rw [herr]; ring) (by push_cast at hfuel ⊢; linarith)
        · -- only x steps
          have hu1 : 1 ≤ u := by
            by_contra hc
            exact hxarrive (by omega) hcx
          have hL : bresLoop (fuel + 1) x y x1 y1 dx dy sx sy err =
              (x, y) :: bresLoop fuel (x + sx) y x1 y1 dx dy sx sy (err - dy) := by
            simp only [bresLoop, if_neg hend, if_pos hcx, if_neg hcy]
          refine hstep (x + sx) y (err - dy) (u - 1) v hL
            (Or.inr rfl) (Or.inl rfl) (by rw [hx]; ring) hy
            (by linarith) hv (by linarith) hvd
            (by rw [herr]; ring) (by push_cast at hfuel ⊢; linarith)
      · -- only y steps
        have hcy : 2 * err < dx := hfire.resolve_left hcx
        have hv1 : 1 ≤ v := by
          by_contra hc
          exact hyarrive (by omega) hcy
        have hL : bresLoop (fuel + 1) x y x1 y1 dx dy sx sy err =
            (x, y) :: bresLoop fuel x (y + sy) x1 y1 dx dy sx sy (err + dx) := by
          simp only [bresLoop, if_neg hend, if_neg hcx, if_pos hcy]
        refine hstep x (y + sy) (err + dx) u (v - 1) hL
          (Or.inl rfl) (Or.inr rfl) hx (by rw [hy]; ring)
          hu (by linarith) hud (by linarith)
          (by rw [herr]; ring) (by push_cast at hfuel ⊢; linarith)

/-- C10: the Bresenham rasterization is total, its first emitted point is
`(x0, y0)`, its last emitted point is `(x1, y1)`, and every two consecutive
emitted points differ by at most 1 in each coordinate. -/
theorem bresenham_line_spec (x0 y0 x1 y1 : ℤ) :
    (bresenham_line x0 y0 x1 y1).head? = some (x0, y0) ∧
    (bresenham_line x0 y0 x1 y1).getLast? = some (x1, y1) ∧
    List.Chain' (fun p q : ℤ × ℤ => |q.1 - p.1| ≤ 1 ∧ |q.2 - p.2| ≤ 1)
      (bresenham_line x0 y0 x1 y1) := by
  have heq : bresenham_line x0 y0 x1 y1 =
      bresLoop (|x1 - x0| + |y1 - y0| + 1).toNat x0 y0 x1 y1 (|x1 - x0|) (|y1 - y0|)
        (if x0 < x1 then 1 else -1) (if y0 < y1 then 1 else -1)
        (|x1 - x0| - |y1 - y0|) := rfl
  have habsx : 0 ≤ |x1 - x0| := abs_nonneg _
  have habsy : 0 ≤ |y1 - y0| := abs_nonneg _
  rw [heq]
  refine bresLoop_spec _ x0 y0 x1 y1 (|x1 - x0|) (|y1 - y0|) _ _ _ (|x1 - x0|) (|y1 - y0|)
    ?_ ?_ ?_ ?_ habsx habsy (le_refl _) (le_refl _) (by ring) ?_
  · split_ifs <;> simp
  · split_ifs <;> simp
  · split_ifs with h
    · rw [abs_of_nonneg (by linarith : (0 : ℤ) ≤ x1 - x0)]
      ring
    · rw [abs_of_nonpos (by linarith : x1 - x0 ≤ 0)]
      ring
  · split_ifs with h
    · rw [abs_of_nonneg (by linarith : (0 : ℤ) ≤ y1 - y0)]
      ring
    · rw [abs_of_nonpos (by linarith : y1 - y0 ≤ 0)]
      ring
  · rw [Int.toNat_of_nonneg (by linarith)]
    linarith

/-- Witness for C5 amended: the fast path applied at a concrete 1×1 image
with the identity warp backend. -/
theorem rotate_zero_identity_fast_path_witness :
    rotate_image_pca (fun _ i => i) ⟨1, 1, [[0]]⟩ 0 = ⟨1, 1, [[0]]⟩ :=
  rotate_zero_identity_fast_path (fun _ i => i) ⟨1, 1, [[0]]⟩

/-- Witness for C10: the rasterization from (0,0) to (3,1). -/
theorem bresenham_line_spec_witness :
    (bresenham_line 0 0 3 1).head? = some (0, 0) ∧
    (bresenham_line 0 0 3 1).getLast? = some (3, 1) ∧
    List.Chain' (fun p q : ℤ × ℤ => |q.1 - p.1| ≤ 1 ∧ |q.2 - p.2| ≤ 1)
      (bresenham_line 0 0 3 1) :=
  bresenham_line_spec 0 0 3 1

end PaddleFormOCR
